import Mathlib

/-
Verification of the rule subsystem of pyClarion
(src/pyClarion/components/rules.py) over a shallow embedding.

Symbols (construct identifiers) are embedded as an inductive type with a
constructor per construct class relevant here: chunk symbols (rule
conditions and conclusions) and rule symbols (rule-database keys).
Python dicts are embedded as association lists; floats as rationals.
Operations of the external numeric-mapping library (pyClarion.numdicts,
outside the verified sources) are modelled from the spec where noted.
-/

/-- Construct symbols: chunk symbols and rule symbols are distinct classes. -/
inductive Symb where
  | ch : Nat → Symb
  | ru : Nat → Symb
deriving DecidableEq, Repr

/-- Test for a chunk symbol. -/
def Symb.isCh : Symb → Bool
  | .ch _ => true
  | .ru _ => false

/-- Test for a rule symbol. -/
def Symb.isRu : Symb → Bool
  | .ch _ => false
  | .ru _ => true

theorem Symb.ne_of_isCh_isRu {a b : Symb} (ha : a.isCh = true) (hb : b.isRu = true) :
    a ≠ b := by
  cases a <;> cases b <;> simp_all [Symb.isCh, Symb.isRu]

/-! ### Association lists (embedding of Python dicts) -/

/-- Lookup of a key in an association list (first match, like a dict). -/
def alGet {α : Type} : List (Symb × α) → Symb → Option α
  | [], _ => none
  | (k', v) :: t, k => if k' = k then some v else alGet t k

/-- Assignment `d[k] = v`: replace the entry for `k` if present, else append. -/
def alSet {α : Type} : List (Symb × α) → Symb → α → List (Symb × α)
  | [], k, v => [(k, v)]
  | (k', v') :: t, k, v =>
      if k' = k then (k, v) :: t else (k', v') :: alSet t k v

/-- Deletion `del d[k]`: dict keys are unique, so dropping every entry with
key `k` coincides with removing the single entry. -/
def alDel {α : Type} (l : List (Symb × α)) (k : Symb) : List (Symb × α) :=
  l.filter (fun p => decide (p.1 ≠ k))

/-- The key list of an association list. -/
def keysOf {α : Type} (l : List (Symb × α)) : List Symb :=
  l.map Prod.fst

/-- Keys of an association list are pairwise distinct (dict invariant). -/
def keysNodup {α : Type} (l : List (Symb × α)) : Prop :=
  (keysOf l).Nodup

instance {α : Type} (l : List (Symb × α)) : Decidable (keysNodup l) := by
  unfold keysNodup; infer_instance

theorem alGet_append {α : Type} (l1 l2 : List (Symb × α)) (k : Symb) :
    alGet (l1 ++ l2) k =
      match alGet l1 k with
      | some v => some v
      | none => alGet l2 k := by
  induction l1 with
  | nil => simp [alGet]
  | cons h t ih =>
      by_cases hk : h.1 = k
      · simp [alGet, hk]
      · simp [alGet, hk, ih]

theorem alGet_isSome_iff_mem_keys {α : Type} (l : List (Symb × α)) (k : Symb) :
    (alGet l k).isSome ↔ k ∈ keysOf l := by
  induction l with
  | nil => simp [alGet, keysOf]
  | cons h t ih =>
      by_cases hk : h.1 = k
      · simp [alGet, hk, keysOf]
      · simp [alGet, hk, keysOf, Ne.symm hk]
        simpa [keysOf] using ih

theorem alGet_eq_none_iff_not_mem_keys {α : Type} (l : List (Symb × α)) (k : Symb) :
    alGet l k = none ↔ k ∉ keysOf l := by
  rw [← alGet_isSome_iff_mem_keys]
  cases alGet l k <;> simp

theorem alGet_of_mem_nodup {α : Type} {l : List (Symb × α)} {k : Symb} {v : α}
    (hnd : keysNodup l) (hm : (k, v) ∈ l) : alGet l k = some v := by
  induction l with
  | nil => simp at hm
  | cons h t ih =>
      unfold keysNodup keysOf at hnd
      simp only [List.map_cons, List.nodup_cons] at hnd
      rcases List.mem_cons.mp hm with heq | htl
      · subst heq; simp [alGet]
      · have hk : h.1 ≠ k := by
          intro hkk
          exact hnd.1 (hkk ▸ (List.mem_map.mpr ⟨(k, v), htl, rfl⟩))
        simp only [alGet, if_neg hk]
        exact ih hnd.2 htl

theorem alGet_alSet_self {α : Type} (l : List (Symb × α)) (k : Symb) (v : α) :
    alGet (alSet l k v) k = some v := by
  induction l with
  | nil => simp [alSet, alGet]
  | cons h t ih =>
      by_cases hk : h.1 = k
      · simp [alSet, hk, alGet]
      · simp [alSet, hk, alGet, ih]

theorem alGet_alSet_ne {α : Type} (l : List (Symb × α)) (k k' : Symb) (v : α)
    (hne : k ≠ k') : alGet (alSet l k v) k' = alGet l k' := by
  induction l with
  | nil => simp [alSet, alGet, hne]
  | cons h t ih =>
      by_cases hk : h.1 = k
      · simp [alSet, hk, alGet, hne]
      · simp [alSet, hk, alGet, ih]

theorem keysOf_alSet {α : Type} (l : List (Symb × α)) (k : Symb) (v : α) :
    keysOf (alSet l k v) = if k ∈ keysOf l then keysOf l else keysOf l ++ [k] := by
  induction l with
  | nil => simp [alSet, keysOf]
  | cons h t ih =>
      by_cases hk : h.1 = k
      · simp [alSet, hk, keysOf]
      · simp only [alSet, if_neg hk, keysOf, List.map_cons]
        by_cases hmem : k ∈ keysOf t
        · simp [keysOf] at hmem ih
          simp [hmem, ih, Ne.symm hk]
        · simp [keysOf] at hmem ih
          simp [hmem, ih, Ne.symm hk]

theorem keysNodup_alSet {α : Type} (l : List (Symb × α)) (k : Symb) (v : α)
    (hnd : keysNodup l) : keysNodup (alSet l k v) := by
  unfold keysNodup
  rw [keysOf_alSet]
  by_cases hmem : k ∈ keysOf l
  · simpa [hmem] using hnd
  · simp only [if_neg hmem]
    simpa [List.nodup_append, hmem] using hnd

theorem alGet_alDel_self {α : Type} (l : List (Symb × α)) (k : Symb) :
    alGet (alDel l k) k = none := by
  induction l with
  | nil => simp [alDel, alGet]
  | cons h t ih =>
      by_cases hk : h.1 = k
      · simpa [alDel, hk] using ih
      · simpa [alDel, hk, alGet] using ih

theorem alGet_alDel_ne {α : Type} (l : List (Symb × α)) (k k' : Symb)
    (hne : k' ≠ k) : alGet (alDel l k) k' = alGet l k' := by
  induction l with
  | nil => simp [alDel, alGet]
  | cons h t ih =>
      by_cases hk : h.1 = k
      · subst hk
        simpa [alDel, alGet, Ne.symm hne] using ih
      · have hfil : alDel (h :: t) k = h :: alDel t k := by
          simp [alDel, List.filter_cons, hk]
        rw [hfil]
        rcases h with ⟨h1, h2⟩
        simp only [alGet, ih]

/-! ### Numeric mappings (pyClarion.numdicts, external library)

The numeric-mapping library is outside the verified sources; its consumed
operations are modelled from the spec (sparse symbol-to-float association
with a declared default; extend-with-default, sum-reduce, scalar divide,
elementwise multiply over the key union, max-combine, default-compaction,
key-remap). -/

/-- Modelled from the spec: a numeric mapping is a sparse symbol-to-rational
association list together with a declared default value. -/
structure NumDict where
  entries : List (Symb × ℚ)
  dflt : ℚ
deriving DecidableEq, Repr

/-- Value of a numeric mapping at a key; the default is returned for absent
keys. -/
def NumDict.val (d : NumDict) (k : Symb) : ℚ :=
  (alGet d.entries k).getD d.dflt

/-- Assignment `d[k] = v` on a numeric mapping. -/
def ndSet (d : NumDict) (k : Symb) (v : ℚ) : NumDict :=
  ⟨alSet d.entries k v, d.dflt⟩

/-- Modelled from the spec: `extend` assigns the given value to every listed
key absent from the mapping, in order; present keys are untouched. -/
def ndExtend (ws : List (Symb × ℚ)) : List Symb → ℚ → List (Symb × ℚ)
  | [], _ => ws
  | c :: cs, v =>
      if (alGet ws c).isSome then ndExtend ws cs v
      else ndExtend (ws ++ [(c, v)]) cs v

/-- Modelled from the spec: `val_sum` reduces a mapping to the sum of its
stored values. -/
def valSum (ws : List (Symb × ℚ)) : ℚ :=
  (ws.map Prod.snd).sum

/-- Modelled from the spec: scalar division `ws /= s` divides every stored
value by `s`. -/
def divAll (ws : List (Symb × ℚ)) (s : ℚ) : List (Symb × ℚ) :=
  ws.map (fun p => (p.1, p.2 / s))

/-- Modelled from the spec: default-compaction (`squeeze`) removes every
entry whose value equals the declared default. -/
def squeeze (d : NumDict) : NumDict :=
  ⟨d.entries.filter (fun p => decide (p.2 ≠ d.dflt)), d.dflt⟩

/-- Modelled from the spec: elementwise multiplication over the union of the
key sets, with defaults multiplied. -/
def ndMul (a b : NumDict) : NumDict :=
  ⟨(keysOf a.entries ++
      (keysOf b.entries).filter (fun k => decide (k ∉ keysOf a.entries))).map
    (fun k => (k, a.val k * b.val k)), a.dflt * b.dflt⟩

/-- Modelled from the spec: in-place max-combine `a.max(b)` takes the
elementwise maximum over the union of the key sets, with defaults combined. -/
def ndMaxMerge (a b : NumDict) : NumDict :=
  ⟨(keysOf a.entries ++
      (keysOf b.entries).filter (fun k => decide (k ∉ keysOf a.entries))).map
    (fun k => (k, max (a.val k) (b.val k))), max a.dflt b.dflt⟩

/-- Modelled from the spec: key-remap (`transform_keys`) applies a function
to every key, keeping values and default. -/
def transformKeys (d : NumDict) (f : Symb → Symb) : NumDict :=
  ⟨d.entries.map (fun p => (f p.1, p.2)), d.dflt⟩

/-! ### Rule (rules.py, class Rule) -/

/-- A rule form: a conclusion chunk together with the frozen condition-weight
mapping (`_conc` and `_weights` in the source). -/
structure Rule where
  conc : Symb
  weights : List (Symb × ℚ)
deriving DecidableEq, Repr

/-- The first precondition predicate computed by `Rule.__init__`:
`set(conds).issuperset(weights)`. -/
def condsSupersetWeights (conds : List Symb) (weights : List (Symb × ℚ)) : Prop :=
  ∀ p ∈ weights, p.1 ∈ conds

/-- The second precondition predicate computed by `Rule.__init__`:
`all(0 < v for v in weights.values())`. -/
def weightsStrictlyPos (weights : List (Symb × ℚ)) : Prop :=
  ∀ p ∈ weights, 0 < p.2

instance (conds : List Symb) (weights : List (Symb × ℚ)) :
    Decidable (condsSupersetWeights conds weights) := by
  unfold condsSupersetWeights; infer_instance

instance (weights : List (Symb × ℚ)) : Decidable (weightsStrictlyPos weights) := by
  unfold weightsStrictlyPos; infer_instance

/-- `Rule.__init__`: seed the weight mapping from the explicit weights (empty
when `None`), extend it with weight 1.0 for every condition absent from the
seed, and divide by the total when it exceeds 1.0. The two precondition
checks of the source build `ValueError` objects without raising them, so
construction never fails on their violation and they do not appear here. -/
def mkRule (conc : Symb) (conds : List Symb)
    (weights : Option (List (Symb × ℚ))) : Rule :=
  let ws := ndExtend (weights.getD []) conds 1
  let w_sum := valSum ws
  let ws := if 1 < w_sum then divAll ws w_sum else ws
  ⟨conc, ws⟩

/-- `Rule.strength`: the weighted sum, over the rule's condition keys, of
condition strength times condition weight; conditions absent from the
strengths mapping contribute its default (`nd.keep` followed by elementwise
multiplication and `nd.val_sum`, modelled from the spec). -/
def ruleStrength (form : Rule) (strengths : NumDict) : ℚ :=
  (form.weights.map (fun p => strengths.val p.1 * p.2)).sum

/-! ### Lemmas on weight seeding and normalization -/

theorem alGet_ndExtend_of_some {ws : List (Symb × ℚ)} {c : Symb} {w : ℚ}
    (conds : List Symb) (v : ℚ) (h : alGet ws c = some w) :
    alGet (ndExtend ws conds v) c = some w := by
  induction conds generalizing ws with
  | nil => simpa [ndExtend] using h
  | cons c' cs ih =>
      by_cases hs : (alGet ws c').isSome
      · simpa [ndExtend, hs] using ih h
      · simp only [ndExtend, hs, if_false]
        apply ih
        rw [alGet_append, h]

theorem alGet_ndExtend_of_none {ws : List (Symb × ℚ)} {c : Symb}
    (conds : List Symb) (v : ℚ) (h : alGet ws c = none) (hc : c ∈ conds) :
    alGet (ndExtend ws conds v) c = some v := by
  induction conds generalizing ws with
  | nil => simp at hc
  | cons c' cs ih =>
      by_cases hs : (alGet ws c').isSome
      · have hcc : c ≠ c' := by
          intro he; rw [← he, h] at hs; simp at hs
        have hc' : c ∈ cs := by
          rcases List.mem_cons.mp hc with he | ht
          · exact absurd he hcc
          · exact ht
        simpa [ndExtend, hs] using ih h hc'
      · simp only [ndExtend, hs, if_false]
        by_cases hcc : c = c'
        · subst hcc
          apply alGet_ndExtend_of_some
          rw [alGet_append, h]
          simp [alGet]
        · have hget : alGet (ws ++ [(c', v)]) c = none := by
            rw [alGet_append, h]
            simp [alGet, Ne.symm hcc]
          have hc' : c ∈ cs := by
            rcases List.mem_cons.mp hc with he | ht
            · exact absurd he hcc
            · exact ht
          exact ih hget hc'

theorem mem_keys_ndExtend {ws : List (Symb × ℚ)} (conds : List Symb) (v : ℚ)
    (k : Symb) :
    k ∈ keysOf (ndExtend ws conds v) ↔ k ∈ keysOf ws ∨ k ∈ conds := by
  induction conds generalizing ws with
  | nil => simp [ndExtend]
  | cons c' cs ih =>
      by_cases hs : (alGet ws c').isSome
      · have hstep : ndExtend ws (c' :: cs) v = ndExtend ws cs v := by
          simp [ndExtend, hs]
        rw [hstep, ih, List.mem_cons]
        constructor
        · rintro (hw | hc)
          · exact Or.inl hw
          · exact Or.inr (Or.inr hc)
        · rintro (hw | he | hc)
          · exact Or.inl hw
          · subst he
            exact Or.inl ((alGet_isSome_iff_mem_keys ws k).mp hs)
          · exact Or.inr hc
      · have hstep : ndExtend ws (c' :: cs) v = ndExtend (ws ++ [(c', v)]) cs v := by
          simp [ndExtend, hs]
        have hks : keysOf (ws ++ [(c', v)]) = keysOf ws ++ [c'] := by
          simp [keysOf]
        rw [hstep, ih, hks, List.mem_cons]
        simp only [List.mem_append, List.mem_singleton]
        tauto

theorem alGet_divAll (ws : List (Symb × ℚ)) (s : ℚ) (k : Symb) :
    alGet (divAll ws s) k = (alGet ws k).map (fun v => v / s) := by
  induction ws with
  | nil => simp [divAll, alGet]
  | cons h t ih =>
      by_cases hk : h.1 = k
      · simp [divAll, alGet, hk]
      · simp only [divAll, alGet, List.map_cons, if_neg hk]
        simpa [divAll] using ih

theorem keysOf_divAll (ws : List (Symb × ℚ)) (s : ℚ) :
    keysOf (divAll ws s) = keysOf ws := by
  simp [divAll, keysOf]

theorem valSum_divAll (ws : List (Symb × ℚ)) (s : ℚ) :
    valSum (divAll ws s) = valSum ws / s := by
  induction ws with
  | nil => simp [divAll, valSum]
  | cons h t ih =>
      simp only [divAll, valSum, List.map_cons, List.sum_cons] at ih ⊢
      rw [ih, div_add_div_same]

/-! ### Claims about Rule construction (C1, C2) -/

/-- C1: for every Rule constructed from a conclusion, a condition list and
explicit weights whose keys are conditions, the frozen weight mapping's key
set equals exactly the condition set; every condition absent from the
explicit weights is seeded with weight 1.0; when the seeded total S exceeds
1 every weight (seeded or explicit) is divided by S and the total becomes
exactly 1, otherwise the weights are unchanged; and the total weight is at
most 1 (hence at most 1 + epsilon). -/
theorem C1_rule_construction (conc : Symb) (conds : List Symb)
    (w : Option (List (Symb × ℚ)))
    (hsub : condsSupersetWeights conds (w.getD [])) :
    (keysOf (mkRule conc conds w).weights).toFinset = conds.toFinset ∧
    (∀ c ∈ conds, alGet (w.getD []) c = none →
      alGet (mkRule conc conds w).weights c =
        some (if 1 < valSum (ndExtend (w.getD []) conds 1) then
          1 / valSum (ndExtend (w.getD []) conds 1) else 1)) ∧
    (∀ c v0, alGet (w.getD []) c = some v0 →
      alGet (mkRule conc conds w).weights c =
        some (if 1 < valSum (ndExtend (w.getD []) conds 1) then
          v0 / valSum (ndExtend (w.getD []) conds 1) else v0)) ∧
    valSum (mkRule conc conds w).weights ≤ 1 ∧
    (1 < valSum (ndExtend (w.getD []) conds 1) →
      valSum (mkRule conc conds w).weights = 1) := by
  have hmk : (mkRule conc conds w).weights =
      if 1 < valSum (ndExtend (w.getD []) conds 1) then
        divAll (ndExtend (w.getD []) conds 1) (valSum (ndExtend (w.getD []) conds 1))
      else ndExtend (w.getD []) conds 1 := rfl
  have hkeys : ∀ k, k ∈ keysOf (ndExtend (w.getD []) conds 1) ↔ k ∈ conds := by
    intro k
    rw [mem_keys_ndExtend]
    constructor
    · rintro (hw | hc)
      · obtain ⟨p, hp, hpk⟩ := List.mem_map.mp hw
        exact hpk ▸ hsub p hp
      · exact hc
    · exact Or.inr
  refine ⟨?_, ?_, ?_, ?_, ?_⟩
  · ext k
    by_cases hlt : 1 < valSum (ndExtend (w.getD []) conds 1) <;>
      simp [hmk, hlt, keysOf_divAll, List.mem_toFinset, hkeys k]
  · intro c hc hnone
    have hext := alGet_ndExtend_of_none conds 1 hnone hc
    by_cases hlt : 1 < valSum (ndExtend (w.getD []) conds 1)
    · rw [hmk, if_pos hlt, if_pos hlt, alGet_divAll, hext]
      simp
    · rw [hmk, if_neg hlt, if_neg hlt, hext]
  · intro c v0 hsome
    have hext := alGet_ndExtend_of_some conds 1 hsome
    by_cases hlt : 1 < valSum (ndExtend (w.getD []) conds 1)
    · rw [hmk, if_pos hlt, if_pos hlt, alGet_divAll, hext]
      simp
    · rw [hmk, if_neg hlt, if_neg hlt, hext]
  · by_cases hlt : 1 < valSum (ndExtend (w.getD []) conds 1)
    · rw [hmk, if_pos hlt, valSum_divAll,
        div_self (ne_of_gt (lt_trans one_pos hlt))]
    · rw [hmk, if_neg hlt]
      exact le_of_not_lt hlt
  · intro hlt
    rw [hmk, if_pos hlt, valSum_divAll,
      div_self (ne_of_gt (lt_trans one_pos hlt))]

/-- Witness for C1 at the concrete input conc = ch 0, conds = [ch 1],
weights = {ch 1 : 2}: the seeded total is 2, so the single weight is
renormalized to 1. -/
theorem C1_rule_construction_witness :
    condsSupersetWeights [Symb.ch 1] [(Symb.ch 1, (2 : ℚ))] ∧
    ((keysOf (mkRule (Symb.ch 0) [Symb.ch 1]
        (some [(Symb.ch 1, (2 : ℚ))])).weights).toFinset = [Symb.ch 1].toFinset ∧
    (∀ c ∈ [Symb.ch 1], alGet ((some [(Symb.ch 1, (2 : ℚ))]).getD []) c = none →
      alGet (mkRule (Symb.ch 0) [Symb.ch 1]
          (some [(Symb.ch 1, (2 : ℚ))])).weights c =
        some (if 1 < valSum (ndExtend ((some [(Symb.ch 1, (2 : ℚ))]).getD [])
            [Symb.ch 1] 1) then
          1 / valSum (ndExtend ((some [(Symb.ch 1, (2 : ℚ))]).getD [])
            [Symb.ch 1] 1) else 1)) ∧
    (∀ c v0, alGet ((some [(Symb.ch 1, (2 : ℚ))]).getD []) c = some v0 →
      alGet (mkRule (Symb.ch 0) [Symb.ch 1]
          (some [(Symb.ch 1, (2 : ℚ))])).weights c =
        some (if 1 < valSum (ndExtend ((some [(Symb.ch 1, (2 : ℚ))]).getD [])
            [Symb.ch 1] 1) then
          v0 / valSum (ndExtend ((some [(Symb.ch 1, (2 : ℚ))]).getD [])
            [Symb.ch 1] 1) else v0)) ∧
    valSum (mkRule (Symb.ch 0) [Symb.ch 1]
      (some [(Symb.ch 1, (2 : ℚ))])).weights ≤ 1 ∧
    (1 < valSum (ndExtend ((some [(Symb.ch 1, (2 : ℚ))]).getD []) [Symb.ch 1] 1) →
      valSum (mkRule (Symb.ch 0) [Symb.ch 1]
        (some [(Symb.ch 1, (2 : ℚ))])).weights = 1)) :=
  ⟨by decide,
    C1_rule_construction (Symb.ch 0) [Symb.ch 1]
      (some [(Symb.ch 1, (2 : ℚ))]) (by decide)⟩

/-- C2 (code bug): the constructor computes the strict-positivity predicate
for the explicit weights, but only builds the `ValueError` without raising
it; at the failing input conc = ch 0, conds = (ch 1,), weights =
{ch 1 : -1} the predicate is violated, yet construction completes normally
and the negative weight is stored (the trailing assertions also pass there,
since the key set matches and the sum is below 1). The spec states the
intended contract: construction must fail fast with a value error. -/
theorem C2_positivity_not_enforced :
    ¬ weightsStrictlyPos [(Symb.ch 1, (-1 : ℚ))] ∧
    mkRule (Symb.ch 0) [Symb.ch 1] (some [(Symb.ch 1, (-1 : ℚ))]) =
      ⟨Symb.ch 0, [(Symb.ch 1, (-1 : ℚ))]⟩ := by
  constructor
  · intro h
    have := h (Symb.ch 1, (-1 : ℚ)) (by simp)
    norm_num at this
  · norm_num [mkRule, ndExtend, valSum, alGet]

/-! ### Rules database (rules.py, class Rules) -/

/-- A value assigned into the database: either an instance of the configured
rule type, or a value of some other type (`notRule`, tagged arbitrarily). -/
inductive DBVal where
  | isRule : Rule → DBVal
  | notRule : Nat → DBVal
deriving DecidableEq, Repr

/-- The Rules database state: the stored id-to-rule dict `_data`, the
optional `max_conds`, and the two pending-request buffers `_add_promises`
and `_del_promises`. -/
structure RulesDB where
  data : List (Symb × Rule)
  max_conds : Option Nat
  add_promises : List (Symb × Rule)
  del_promises : List Symb
deriving DecidableEq, Repr

/-- `Rules._validate_rule_form`: raises when a maximum is configured and the
value's weight count exceeds it; with a maximum configured, accessing
`.weights` on a non-rule value raises an attribute error. The result is the
raised message, if any. -/
def validate_rule_form (maxc : Option Nat) (v : DBVal) : Option String :=
  match maxc with
  | none => none
  | some m =>
      match v with
      | .isRule form =>
          if m < form.weights.length then
            some "Received rule with too many conditions."
          else none
      | .notRule _ => some "AttributeError: value has no weights."

/-- `Rules.__setitem__`: validate the form, then store the value when it is
an instance of the configured rule type; for any other value the
`TypeError` is built but never raised, and the assignment is silently
dropped. Returns the new state and the raised message, if any. -/
def setitem (db : RulesDB) (k : Symb) (v : DBVal) : RulesDB × Option String :=
  match validate_rule_form db.max_conds v with
  | some e => (db, some e)
  | none =>
      match v with
      | .isRule form => ({ db with data := alSet db.data k form }, none)
      | .notRule _ => (db, none)

/-- `Rules.__delitem__`: `del self._data[key]`; a key error when absent. -/
def delitem (db : RulesDB) (k : Symb) : RulesDB × Option String :=
  if (alGet db.data k).isSome then
    ({ db with data := alDel db.data k }, none)
  else (db, some "KeyError")

theorem valSum_mkRule_le_one (conc : Symb) (conds : List Symb)
    (w : Option (List (Symb × ℚ))) :
    valSum (mkRule conc conds w).weights ≤ 1 := by
  have hmk : (mkRule conc conds w).weights =
      if 1 < valSum (ndExtend (w.getD []) conds 1) then
        divAll (ndExtend (w.getD []) conds 1)
          (valSum (ndExtend (w.getD []) conds 1))
      else ndExtend (w.getD []) conds 1 := rfl
  by_cases hlt : 1 < valSum (ndExtend (w.getD []) conds 1)
  · rw [hmk, if_pos hlt, valSum_divAll,
      div_self (ne_of_gt (lt_trans one_pos hlt))]
  · rw [hmk, if_neg hlt]
    exact le_of_not_lt hlt

/-- `Rule.__init__` as `define` invokes it, including the trailing
postcondition asserts of the source: after the construction steps of
`mkRule`, `assert set(self._weights) == set(conds)` and
`assert nd.val_sum(ws) <= 1` run, and a failing assert raises an
`AssertionError` so that no Rule is produced. -/
def Rule_init (conc : Symb) (conds : List Symb)
    (weights : Option (List (Symb × ℚ))) : Except String Rule :=
  if (keysOf (mkRule conc conds weights).weights).toFinset ≠
      conds.toFinset then
    .error "AssertionError: Each cond must have a weight."
  else if ¬ valSum (mkRule conc conds weights).weights ≤ 1 then
    .error "AssertionError: Inferred weights must sum to one or less."
  else .ok (mkRule conc conds weights)

/-- `Rules.define`: build a Rule from the arguments via the constructor
(whose postcondition asserts may raise), insert it under the given id
through `__setitem__`, and return the id (the id is only reached when
neither construction nor insertion raises). -/
def define (db : RulesDB) (r : Symb) (conc : Symb) (conds : List Symb)
    (weights : Option (List (Symb × ℚ))) : (RulesDB × Option String) × Symb :=
  match Rule_init conc conds weights with
  | .error e => ((db, some e), r)
  | .ok form => (setitem db r (.isRule form), r)

/-- `Rules.request_add`: register a pending insertion; raises when the id
already has a pending request of either kind. -/
def request_add (db : RulesDB) (r : Symb) (form : Rule) :
    RulesDB × Option String :=
  if r ∈ keysOf db.add_promises ∨ r ∈ db.del_promises then
    (db, some "Rule already registered for a promised update.")
  else ({ db with add_promises := alSet db.add_promises r form }, none)

/-- `Rules.request_del`: register a pending deletion; raises when the id
already has a pending request of either kind, or is not currently a member
of the database. -/
def request_del (db : RulesDB) (r : Symb) : RulesDB × Option String :=
  if r ∈ keysOf db.add_promises ∨ r ∈ db.del_promises then
    (db, some "Rule already registered for a promised update.")
  else if (alGet db.data r).isNone then
    (db, some "Cannot delete non-existent rule.")
  else ({ db with del_promises := db.del_promises ++ [r] }, none)

/-- The deletion loop of `resolve_requests`: `del self[r]` for every pending
deletion in order, stopping at the first raised error. -/
def delAll (db : RulesDB) : List Symb → RulesDB × Option String
  | [] => (db, none)
  | r :: t =>
      match delitem db r with
      | (db', none) => delAll db' t
      | (db', some e) => (db', some e)

/-- `MutableMapping.update`: assign each pair in order through
`__setitem__`, stopping at the first raised error. -/
def update_run (db : RulesDB) : List (Symb × Rule) → RulesDB × Option String
  | [] => (db, none)
  | (k, v) :: t =>
      match setitem db k (.isRule v) with
      | (db', none) => update_run db' t
      | (db', some e) => (db', some e)

/-- `Rules.resolve_requests`: apply all pending deletions, clear the
deletion set, apply all pending insertions via `update`, then clear the
insertion map; a raised error propagates immediately, leaving the state as
it was at the raise. -/
def resolve_requests (db : RulesDB) : RulesDB × Option String :=
  match delAll db db.del_promises with
  | (db1, some e) => (db1, some e)
  | (db1, none) =>
      let db2 : RulesDB := { db1 with del_promises := [] }
      match update_run db2 db2.add_promises with
      | (db3, some e) => (db3, some e)
      | (db3, none) => ({ db3 with add_promises := [] }, none)

/-! ### AssociativeRules and ActionRules (rules.py) -/

/-- One iteration of the rule loop in `AssociativeRules.call`:
`d[form.conc] = max(d[form.conc], s_r)` followed by `d[r] = s_r`. -/
def assocStep (strengths : NumDict) (d : NumDict) (p : Symb × Rule) : NumDict :=
  let s := ruleStrength p.2 strengths
  ndSet (ndSet d p.2.conc (max (d.val p.2.conc) s)) p.1 s

/-- `AssociativeRules.call`: starting from a fresh mapping with default 0,
record every rule's strength under its id and accumulate each conclusion's
running maximum, then squeeze out default-valued entries. -/
def associative_call (rules : List (Symb × Rule)) (strengths : NumDict) :
    NumDict :=
  squeeze (rules.foldl (assocStep strengths) ⟨[], 0⟩)

/-- `ActionRules.__init__`: construction fails unless the supplied
database's `max_conds` is set and does not exceed 1. The result is the
raised message, if any. -/
def actionRulesInit (db : RulesDB) : Option String :=
  match db.max_conds with
  | none => some "Rule database must not accept multiple condition rules."
  | some m =>
      if 1 < m then
        some "Rule database must not accept multiple condition rules."
      else none

/-- Modelled from the spec: the one-hot mapping produced by the stochastic
draw of a single key (`nd.draw(probabilities, n=1)`) — the drawn key maps
to 1, with default 0. Which key is drawn is a stochastic choice, so the
computation below takes the drawn key as a parameter. -/
def drawOneHot (sel : Symb) : NumDict := ⟨[(sel, 1)], 0⟩

/-- `ActionRules.call`: record every rule's strength in a mapping with
default 0, zero every non-selected entry by multiplying with the one-hot
draw, squeeze out default-valued entries, then max-combine with the
key-remap of the result sending each rule id to its rule's conclusion. -/
def action_call (rules : List (Symb × Rule)) (strengths : NumDict)
    (sel : Symb) : NumDict :=
  let d : NumDict :=
    rules.foldl (fun d p => ndSet d p.1 (ruleStrength p.2 strengths)) ⟨[], 0⟩
  let d1 := ndMul d (drawOneHot sel)
  let d2 := squeeze d1
  ndMaxMerge d2
    (transformKeys d2 (fun r => ((alGet rules r).map Rule.conc).getD r))

/-! ### Claims about the database operations (C5, C7, C8, C9, C10) -/

/-- The invariant that a rule id holds at most one pending request. -/
def pendingAtMostOne (db : RulesDB) : Prop :=
  ∀ s ∈ keysOf db.add_promises, s ∉ db.del_promises

instance (db : RulesDB) : Decidable (pendingAtMostOne db) := by
  unfold pendingAtMostOne; infer_instance

/-- The max-condition-count constraint an inserted rule must satisfy
(negation of the condition checked by `_validate_rule_form`). -/
def validForm (maxc : Option Nat) (form : Rule) : Prop :=
  ∀ m, maxc = some m → form.weights.length ≤ m

instance (maxc : Option Nat) (form : Rule) : Decidable (validForm maxc form) :=
  match maxc with
  | none => isTrue (by intro m h; cases h)
  | some m =>
      if h : form.weights.length ≤ m then
        isTrue (by intro m' hm'; injection hm' with hm'; omega)
      else
        isFalse (by intro hvf; exact h (hvf m rfl))

theorem validate_isRule_none_iff (maxc : Option Nat) (form : Rule) :
    validate_rule_form maxc (.isRule form) = none ↔ validForm maxc form := by
  cases maxc with
  | none => simp [validate_rule_form, validForm]
  | some m =>
      by_cases h : m < form.weights.length
      · simp only [validate_rule_form, if_pos h]
        constructor
        · intro he; simp at he
        · intro hvf
          have := hvf m rfl
          omega
      · simp only [validate_rule_form, if_neg h]
        constructor
        · intro _ m' hm'
          injection hm' with hm'
          omega
        · intro _; trivial

/-- C5 counterexample: over a database whose max-condition-count is 0 —
which is not exactly 1 — ActionRules construction does not raise, refuting
the claimed equivalence with max-condition-count differing from 1. -/
theorem C5_counterexample :
    actionRulesInit
      { data := [], max_conds := some 0,
        add_promises := [], del_promises := [] } = none ∧
    (some 0 : Option Nat) ≠ some 1 := by
  constructor
  · simp [actionRulesInit]
  · simp

/-- C5 (amended): ActionRules construction raises a value error iff the
supplied database's max-condition-count is None or greater than 1; in
particular it succeeds at exactly 1 (but also at 0). -/
theorem C5_actionrules_init (db : RulesDB) :
    (actionRulesInit db).isSome ↔
      (db.max_conds = none ∨ ∃ m, db.max_conds = some m ∧ 1 < m) := by
  cases h : db.max_conds with
  | none => simp [actionRulesInit, h]
  | some m =>
      by_cases hm : 1 < m
      · simp [actionRulesInit, h, hm]
      · simp [actionRulesInit, h, hm]

/-- C7: `request_add` raises exactly when the id already has a pending
request of either kind, `request_del` raises exactly when the id has a
pending request or is not a member, both leave the pending sets unchanged
when they raise, and both preserve the invariant that an id holds at most
one pending request. -/
theorem C7_request_validation (db : RulesDB) (r : Symb) (form : Rule) :
    ((request_add db r form).2.isSome ↔
      (r ∈ keysOf db.add_promises ∨ r ∈ db.del_promises)) ∧
    ((request_add db r form).2.isSome → (request_add db r form).1 = db) ∧
    ((request_del db r).2.isSome ↔
      (r ∈ keysOf db.add_promises ∨ r ∈ db.del_promises ∨
        alGet db.data r = none)) ∧
    ((request_del db r).2.isSome → (request_del db r).1 = db) ∧
    (pendingAtMostOne db → pendingAtMostOne (request_add db r form).1) ∧
    (pendingAtMostOne db → pendingAtMostOne (request_del db r).1) := by
  by_cases hpend : r ∈ keysOf db.add_promises ∨ r ∈ db.del_promises
  · refine ⟨by simp [request_add, hpend], by simp [request_add, hpend],
      by simp [request_del, hpend, hpend.imp id Or.inl],
      by simp [request_del, hpend], ?_, ?_⟩
    · intro h; simpa [request_add, hpend] using h
    · intro h; simpa [request_del, hpend] using h
  · push_neg at hpend
    refine ⟨by simp [request_add, hpend.1, hpend.2], ?_, ?_, ?_, ?_, ?_⟩
    · simp [request_add, hpend.1, hpend.2]
    · by_cases hmem : (alGet db.data r).isNone
      · simp only [Option.isNone_iff_eq_none] at hmem
        simp [request_del, hpend.1, hpend.2, hmem]
      · simp only [Option.isNone_iff_eq_none] at hmem
        simp [request_del, hpend.1, hpend.2, hmem]
    · by_cases hmem : (alGet db.data r).isNone
      · simp [request_del, hpend.1, hpend.2, hmem]
      · simp [request_del, hpend.1, hpend.2, hmem]
    · intro h s hsa hsd
      simp only [request_add, hpend.1, hpend.2, or_self, if_false] at hsa hsd
      rw [keysOf_alSet] at hsa
      by_cases hra : r ∈ keysOf db.add_promises
      · exact h s (by simpa [hra] using hsa) hsd
      · rcases by simpa [hra] using hsa with hs | hs
        · exact h s hs hsd
        · exact hpend.2 (hs ▸ hsd)
    · intro h s hsa hsd
      by_cases hmem : (alGet db.data r).isNone
      · simp only [request_del, hpend.1, hpend.2, or_self, if_false,
          if_pos hmem] at hsa hsd
        exact h s hsa hsd
      · simp only [request_del, hpend.1, hpend.2, or_self, if_false,
          if_neg hmem, List.mem_append, List.mem_singleton] at hsa hsd
        rcases hsd with hsd | hsd
        · exact h s hsa hsd
        · exact hpend.1 (hsd ▸ hsa)

/-- Witness for C7 at a concrete database with one pending add and one
stored rule. -/
theorem C7_request_validation_witness :
    (((request_add
      { data := [(Symb.ru 1, ⟨Symb.ch 5, [(Symb.ch 1, 1)]⟩)],
        max_conds := none,
        add_promises := [(Symb.ru 2, ⟨Symb.ch 6, [(Symb.ch 2, 1)]⟩)],
        del_promises := [] } (Symb.ru 2)
        ⟨Symb.ch 7, [(Symb.ch 3, 1)]⟩).2.isSome ↔
      (Symb.ru 2 ∈ keysOf [(Symb.ru 2, (⟨Symb.ch 6, [(Symb.ch 2, 1)]⟩ : Rule))] ∨
        Symb.ru 2 ∈ ([] : List Symb)))) ∧
    pendingAtMostOne
      (request_add
        { data := [(Symb.ru 1, ⟨Symb.ch 5, [(Symb.ch 1, 1)]⟩)],
          max_conds := none,
          add_promises := [(Symb.ru 2, ⟨Symb.ch 6, [(Symb.ch 2, 1)]⟩)],
          del_promises := [] } (Symb.ru 2)
        ⟨Symb.ch 7, [(Symb.ch 3, 1)]⟩).1 := by
  have h := C7_request_validation
    { data := [(Symb.ru 1, ⟨Symb.ch 5, [(Symb.ch 1, 1)]⟩)],
      max_conds := none,
      add_promises := [(Symb.ru 2, ⟨Symb.ch 6, [(Symb.ch 2, 1)]⟩)],
      del_promises := [] } (Symb.ru 2) ⟨Symb.ch 7, [(Symb.ch 3, 1)]⟩
  exact ⟨h.1, h.2.2.2.2.1 (by decide)⟩

/-- C8: with a configured max-condition-count, inserting a rule whose
distinct condition count (its weight count; weight keys are distinct for
constructed rules) exceeds the maximum raises a value error and leaves the
database unchanged; `define` and resolved add requests insert through the
same `__setitem__`, so the same rejection applies to them. -/
theorem C8_max_conds_enforced (db : RulesDB) (k : Symb) (form : Rule)
    (m : Nat) (hm : db.max_conds = some m)
    (hnd : keysNodup form.weights) (hlen : m < form.weights.length) :
    (setitem db k (.isRule form)).2.isSome ∧
    (setitem db k (.isRule form)).1 = db := by
  constructor
  · simp [setitem, validate_rule_form, hm, hlen]
  · simp [setitem, validate_rule_form, hm, hlen]

/-- Witness for C8: a database with max-condition-count 1 rejects a
two-condition rule unchanged. -/
theorem C8_max_conds_enforced_witness :
    (setitem
      { data := [], max_conds := some 1,
        add_promises := [], del_promises := [] } (Symb.ru 1)
      (.isRule ⟨Symb.ch 5, [(Symb.ch 1, 1), (Symb.ch 2, 1)]⟩)).2.isSome ∧
    (setitem
      { data := [], max_conds := some 1,
        add_promises := [], del_promises := [] } (Symb.ru 1)
      (.isRule ⟨Symb.ch 5, [(Symb.ch 1, 1), (Symb.ch 2, 1)]⟩)).1 =
      { data := [], max_conds := some 1,
        add_promises := [], del_promises := [] } :=
  C8_max_conds_enforced
    { data := [], max_conds := some 1,
      add_promises := [], del_promises := [] } (Symb.ru 1)
    ⟨Symb.ch 5, [(Symb.ch 1, 1), (Symb.ch 2, 1)]⟩ 1 rfl (by decide) (by decide)

/-- C9 counterexample: a database already mapping rule id ru 1 to a rule
concluding ch 5; `define` under the same id with a thoroughly incompatible
rule (different conclusion, different condition) raises nothing and simply
overwrites the entry. -/
theorem C9_counterexample :
    ((define
      { data := [(Symb.ru 1, ⟨Symb.ch 5, [(Symb.ch 1, 1)]⟩)],
        max_conds := none, add_promises := [], del_promises := [] }
      (Symb.ru 1) (Symb.ch 6) [Symb.ch 2] none).1.2 = none) ∧
    ((define
      { data := [(Symb.ru 1, ⟨Symb.ch 5, [(Symb.ch 1, 1)]⟩)],
        max_conds := none, add_promises := [], del_promises := [] }
      (Symb.ru 1) (Symb.ch 6) [Symb.ch 2] none).1.1.data =
        [(Symb.ru 1, ⟨Symb.ch 6, [(Symb.ch 2, 1)]⟩)]) ∧
    (⟨Symb.ch 5, [(Symb.ch 1, 1)]⟩ : Rule) ≠ ⟨Symb.ch 6, [(Symb.ch 2, 1)]⟩ := by
  have hmk : mkRule (Symb.ch 6) [Symb.ch 2] none =
      ⟨Symb.ch 6, [(Symb.ch 2, 1)]⟩ := by
    norm_num [mkRule, ndExtend, valSum, alGet]
  have hinit : Rule_init (Symb.ch 6) [Symb.ch 2] none =
      .ok ⟨Symb.ch 6, [(Symb.ch 2, 1)]⟩ := by
    unfold Rule_init
    rw [hmk]
    norm_num [keysOf, valSum]
  refine ⟨?_, ?_, ?_⟩
  · simp [define, hinit, setitem, validate_rule_form]
  · simp [define, hinit, setitem, validate_rule_form, alSet]
  · simp

/-- C9 (amended): `define` builds a Rule from its arguments and inserts it
under the id through `__setitem__`, overwriting any existing entry rather
than failing because of one; it returns the id. It raises exactly when the
Rule constructor's postcondition assert fails — some explicit weight key is
not a condition, so the weight-key set differs from the condition set — or
when the built rule violates the configured max-condition-count; in either
failure the stored mapping is unchanged. -/
theorem C9_define (db : RulesDB) (r conc : Symb) (conds : List Symb)
    (w : Option (List (Symb × ℚ))) :
    ((define db r conc conds w).1.2 = none ↔
      ((keysOf (mkRule conc conds w).weights).toFinset = conds.toFinset ∧
        validForm db.max_conds (mkRule conc conds w))) ∧
    ((define db r conc conds w).1.2 = none →
      (define db r conc conds w).2 = r ∧
      (define db r conc conds w).1.1.data =
        alSet db.data r (mkRule conc conds w)) ∧
    ((define db r conc conds w).1.2 ≠ none →
      (define db r conc conds w).1.1 = db) := by
  have hsum : valSum (mkRule conc conds w).weights ≤ 1 :=
    valSum_mkRule_le_one conc conds w
  by_cases hkeys : (keysOf (mkRule conc conds w).weights).toFinset =
      conds.toFinset
  · have hinit : Rule_init conc conds w = .ok (mkRule conc conds w) := by
      unfold Rule_init
      rw [if_neg (not_not.mpr hkeys), if_neg (not_not.mpr hsum)]
    cases hv : validate_rule_form db.max_conds
        (.isRule (mkRule conc conds w)) with
    | none =>
        refine ⟨?_, ?_, ?_⟩
        · constructor
          · intro _
            exact ⟨hkeys, (validate_isRule_none_iff db.max_conds _).mp hv⟩
          · intro _
            simp [define, hinit, setitem, hv]
        · intro _
          exact ⟨by simp [define, hinit], by simp [define, hinit, setitem, hv]⟩
        · intro h
          exact absurd (by simp [define, hinit, setitem, hv]) h
    | some e =>
        refine ⟨?_, ?_, ?_⟩
        · constructor
          · intro h
            simp [define, hinit, setitem, hv] at h
          · rintro ⟨_, hvf⟩
            have := (validate_isRule_none_iff db.max_conds _).mpr hvf
            rw [hv] at this
            exact absurd this (by simp)
        · intro h
          simp [define, hinit, setitem, hv] at h
        · intro _
          simp [define, hinit, setitem, hv]
  · have hinit : Rule_init conc conds w =
        .error "AssertionError: Each cond must have a weight." := by
      unfold Rule_init
      rw [if_pos hkeys]
    refine ⟨?_, ?_, ?_⟩
    · constructor
      · intro h
        simp [define, hinit] at h
      · rintro ⟨hk, _⟩
        exact absurd hk hkeys
    · intro h
      simp [define, hinit] at h
    · intro _
      simp [define, hinit]

/-- Witness for C9 at a concrete input: defining a one-condition rule in an
empty database with max-condition-count 1 succeeds, returns the id, and
stores the built rule. -/
theorem C9_define_witness :
    ((define
      { data := [], max_conds := some 1,
        add_promises := [], del_promises := [] }
      (Symb.ru 1) (Symb.ch 5) [Symb.ch 1] none).1.2 = none ↔
      ((keysOf (mkRule (Symb.ch 5) [Symb.ch 1] none).weights).toFinset =
          [Symb.ch 1].toFinset ∧
        validForm (some 1) (mkRule (Symb.ch 5) [Symb.ch 1] none))) ∧
    ((define
      { data := [], max_conds := some 1,
        add_promises := [], del_promises := [] }
      (Symb.ru 1) (Symb.ch 5) [Symb.ch 1] none).1.2 = none →
      (define
        { data := [], max_conds := some 1,
          add_promises := [], del_promises := [] }
        (Symb.ru 1) (Symb.ch 5) [Symb.ch 1] none).2 = Symb.ru 1 ∧
      (define
        { data := [], max_conds := some 1,
          add_promises := [], del_promises := [] }
        (Symb.ru 1) (Symb.ch 5) [Symb.ch 1] none).1.1.data =
        alSet [] (Symb.ru 1) (mkRule (Symb.ch 5) [Symb.ch 1] none)) :=
  ⟨(C9_define
      { data := [], max_conds := some 1,
        add_promises := [], del_promises := [] }
      (Symb.ru 1) (Symb.ch 5) [Symb.ch 1] none).1,
    (C9_define
      { data := [], max_conds := some 1,
        add_promises := [], del_promises := [] }
      (Symb.ru 1) (Symb.ch 5) [Symb.ch 1] none).2.1⟩

/-- C10: with no configured max-condition-count, assigning a non-rule value
under any id raises nothing and stores nothing — the `TypeError` is built
but never raised and the assignment is silently dropped (the same
`__setitem__` also serves `update` and `resolve_requests`). -/
theorem C10_silent_type_drop (db : RulesDB) (k : Symb) (t : Nat)
    (h : db.max_conds = none) :
    setitem db k (.notRule t) = (db, none) := by
  simp [setitem, validate_rule_form, h]

/-- Witness for C10 at a concrete database holding one rule. -/
theorem C10_silent_type_drop_witness :
    setitem
      { data := [(Symb.ru 1, ⟨Symb.ch 5, [(Symb.ch 1, 1)]⟩)],
        max_conds := none, add_promises := [], del_promises := [] }
      (Symb.ru 2) (.notRule 0) =
      ({ data := [(Symb.ru 1, ⟨Symb.ch 5, [(Symb.ch 1, 1)]⟩)],
          max_conds := none, add_promises := [], del_promises := [] }, none) :=
  C10_silent_type_drop
    { data := [(Symb.ru 1, ⟨Symb.ch 5, [(Symb.ch 1, 1)]⟩)],
      max_conds := none, add_promises := [], del_promises := [] }
    (Symb.ru 2) 0 rfl

/-! ### Claim C6: resolve_requests -/

theorem delAll_ok (dels : List Symb) (db : RulesDB)
    (hnd : dels.Nodup) (hpres : ∀ r ∈ dels, (alGet db.data r).isSome) :
    delAll db dels = ({ db with data := dels.foldl alDel db.data }, none) := by
  induction dels generalizing db with
  | nil => simp [delAll]
  | cons r t ih =>
      simp only [List.nodup_cons] at hnd
      have hpre : (alGet db.data r).isSome := hpres r (List.mem_cons_self r t)
      have hstep : delitem db r = ({ db with data := alDel db.data r }, none) := by
        simp [delitem, hpre]
      have hrest : ∀ r' ∈ t, (alGet (alDel db.data r) r').isSome := by
        intro r' hr'
        have hne : r' ≠ r := fun he => hnd.1 (he ▸ hr')
        rw [alGet_alDel_ne _ _ _ hne]
        exact hpres r' (List.mem_cons_of_mem r hr')
      have := ih { db with data := alDel db.data r } hnd.2 hrest
      simp only [delAll, hstep, this, List.foldl_cons]

theorem update_run_ok (adds : List (Symb × Rule)) (db : RulesDB)
    (hok : ∀ p ∈ adds, validForm db.max_conds p.2) :
    update_run db adds =
      ({ db with data := adds.foldl (fun d p => alSet d p.1 p.2) db.data },
        none) := by
  induction adds generalizing db with
  | nil => simp [update_run]
  | cons p t ih =>
      rcases p with ⟨k, v⟩
      have hvf : validate_rule_form db.max_conds (.isRule v) = none :=
        (validate_isRule_none_iff _ _).mpr
          (hok (k, v) (List.mem_cons_self _ t))
      have hstep : setitem db k (.isRule v) =
          ({ db with data := alSet db.data k v }, none) := by
        simp [setitem, hvf]
      have hrest : ∀ p ∈ t,
          validForm ({ db with data := alSet db.data k v } : RulesDB).max_conds
            p.2 := by
        intro p hp
        exact hok p (List.mem_cons_of_mem _ hp)
      have := ih { db with data := alSet db.data k v } hrest
      simp only [update_run, hstep, this, List.foldl_cons]

theorem foldl_alSet_get_not_mem {α : Type} (adds : List (Symb × α))
    (data : List (Symb × α)) (r : Symb) (hr : r ∉ keysOf adds) :
    alGet (adds.foldl (fun d p => alSet d p.1 p.2) data) r = alGet data r := by
  induction adds generalizing data with
  | nil => simp
  | cons p t ih =>
      simp only [keysOf, List.map_cons, List.mem_cons] at hr
      push_neg at hr
      simp only [List.foldl_cons]
      rw [ih _ (by simpa [keysOf] using hr.2)]
      exact alGet_alSet_ne _ _ _ _ (Ne.symm hr.1)

theorem foldl_alSet_get_mem {α : Type} (adds : List (Symb × α))
    (data : List (Symb × α)) (r : Symb) (form : α)
    (hnd : keysNodup adds) (hm : (r, form) ∈ adds) :
    alGet (adds.foldl (fun d p => alSet d p.1 p.2) data) r = some form := by
  induction adds generalizing data with
  | nil => simp at hm
  | cons p t ih =>
      unfold keysNodup keysOf at hnd
      simp only [List.map_cons, List.nodup_cons] at hnd
      rcases List.mem_cons.mp hm with heq | htl
      · subst heq
        simp only [List.foldl_cons]
        rw [foldl_alSet_get_not_mem _ _ _ (by simpa [keysOf] using hnd.1)]
        exact alGet_alSet_self _ _ _
      · simp only [List.foldl_cons]
        exact ih _ hnd.2 htl

theorem foldl_alDel_get_none {α : Type} (dels : List Symb)
    (data : List (Symb × α)) (r : Symb) (h : alGet data r = none) :
    alGet (dels.foldl alDel data) r = none := by
  induction dels generalizing data with
  | nil => simpa
  | cons k t ih =>
      simp only [List.foldl_cons]
      apply ih
      by_cases hk : k = r
      · subst hk; exact alGet_alDel_self _ _
      · rw [alGet_alDel_ne _ _ _ (Ne.symm hk)]; exact h

theorem foldl_alDel_get_mem {α : Type} (dels : List Symb)
    (data : List (Symb × α)) (r : Symb) (hm : r ∈ dels) :
    alGet (dels.foldl alDel data) r = none := by
  induction dels generalizing data with
  | nil => simp at hm
  | cons k t ih =>
      simp only [List.foldl_cons]
      by_cases hk : k = r
      · subst hk
        exact foldl_alDel_get_none _ _ _ (alGet_alDel_self _ _)
      · have : r ∈ t := by
          rcases List.mem_cons.mp hm with he | ht
          · exact absurd he.symm hk
          · exact ht
        exact ih _ this

/-- C6 counterexample: a database with max-condition-count 1 and a single
pending add of a two-condition rule; `resolve_requests` raises during the
insertion phase, and the pending-add set is left uncleared — so the pending
state is not cleared, refuting the claim over arbitrary pending states. -/
theorem C6_counterexample :
    (resolve_requests
      { data := [], max_conds := some 1,
        add_promises :=
          [(Symb.ru 1, ⟨Symb.ch 5, [(Symb.ch 1, 1), (Symb.ch 2, 1)]⟩)],
        del_promises := [] }).2.isSome ∧
    (resolve_requests
      { data := [], max_conds := some 1,
        add_promises :=
          [(Symb.ru 1, ⟨Symb.ch 5, [(Symb.ch 1, 1), (Symb.ch 2, 1)]⟩)],
        del_promises := [] }).1.add_promises ≠ [] := by
  constructor
  · simp [resolve_requests, delAll, update_run, setitem, validate_rule_form]
  · simp [resolve_requests, delAll, update_run, setitem, validate_rule_form]

/-- C6 (amended): when every pending deletion targets a current member and
every pending insertion satisfies the max-condition-count constraint,
`resolve_requests` applies all deletions first, then all insertions
(each revalidated), raises nothing, and clears both pending sets; every
pending-add id then maps to its registered rule and every deleted,
non-re-added id is absent. When a revalidation fails, the raise propagates
and the pending-add set is left uncleared (see the counterexample), so the
clearing is only atomic on the success path. -/
theorem C6_resolve_requests (db : RulesDB)
    (hdnd : db.del_promises.Nodup)
    (hdel : ∀ r ∈ db.del_promises, (alGet db.data r).isSome)
    (hand : keysNodup db.add_promises)
    (hok : ∀ p ∈ db.add_promises, validForm db.max_conds p.2) :
    (resolve_requests db).2 = none ∧
    (resolve_requests db).1.add_promises = [] ∧
    (resolve_requests db).1.del_promises = [] ∧
    (∀ r form, (r, form) ∈ db.add_promises →
      alGet (resolve_requests db).1.data r = some form) ∧
    (∀ r ∈ db.del_promises, r ∉ keysOf db.add_promises →
      alGet (resolve_requests db).1.data r = none) := by
  have hdelA := delAll_ok db.del_promises db hdnd hdel
  have hupd := update_run_ok db.add_promises
    ⟨db.del_promises.foldl alDel db.data, db.max_conds, db.add_promises, []⟩ hok
  have hres : resolve_requests db =
      (⟨db.add_promises.foldl (fun d p => alSet d p.1 p.2)
          (db.del_promises.foldl alDel db.data),
        db.max_conds, [], []⟩, none) := by
    rw [resolve_requests, hdelA]
    simp only [hupd]
  refine ⟨by rw [hres], by rw [hres], by rw [hres], ?_, ?_⟩
  · intro r form hm
    rw [hres]
    exact foldl_alSet_get_mem _ _ _ _ hand hm
  · intro r hrd hra
    rw [hres]
    simp only []
    rw [foldl_alSet_get_not_mem _ _ _ hra]
    exact foldl_alDel_get_mem _ _ _ hrd

/-- Witness for C6 at a concrete database with one pending deletion of a
stored rule and one pending single-condition insertion under
max-condition-count 1. -/
theorem C6_resolve_requests_witness :
    (resolve_requests
      { data := [(Symb.ru 9, ⟨Symb.ch 9, [(Symb.ch 3, 1)]⟩)],
        max_conds := some 1,
        add_promises := [(Symb.ru 1, ⟨Symb.ch 5, [(Symb.ch 1, 1)]⟩)],
        del_promises := [Symb.ru 9] }).2 = none ∧
    (resolve_requests
      { data := [(Symb.ru 9, ⟨Symb.ch 9, [(Symb.ch 3, 1)]⟩)],
        max_conds := some 1,
        add_promises := [(Symb.ru 1, ⟨Symb.ch 5, [(Symb.ch 1, 1)]⟩)],
        del_promises := [Symb.ru 9] }).1.add_promises = [] ∧
    (∀ r form, (r, form) ∈
        [(Symb.ru 1, (⟨Symb.ch 5, [(Symb.ch 1, 1)]⟩ : Rule))] →
      alGet (resolve_requests
        { data := [(Symb.ru 9, ⟨Symb.ch 9, [(Symb.ch 3, 1)]⟩)],
          max_conds := some 1,
          add_promises := [(Symb.ru 1, ⟨Symb.ch 5, [(Symb.ch 1, 1)]⟩)],
          del_promises := [Symb.ru 9] }).1.data r = some form) := by
  have h := C6_resolve_requests
    { data := [(Symb.ru 9, ⟨Symb.ch 9, [(Symb.ch 3, 1)]⟩)],
      max_conds := some 1,
      add_promises := [(Symb.ru 1, ⟨Symb.ch 5, [(Symb.ch 1, 1)]⟩)],
      del_promises := [Symb.ru 9] }
    (by decide) (by decide) (by decide) (by decide)
  exact ⟨h.1, h.2.1, h.2.2.2.1⟩

/-! ### Claim C3: AssociativeRules -/

theorem ndVal_ndSet_self (d : NumDict) (k : Symb) (v : ℚ) :
    (ndSet d k v).val k = v := by
  simp [ndSet, NumDict.val, alGet_alSet_self]

theorem ndVal_ndSet_ne (d : NumDict) (k k' : Symb) (v : ℚ) (h : k ≠ k') :
    (ndSet d k v).val k' = d.val k' := by
  simp [ndSet, NumDict.val, alGet_alSet_ne _ _ _ _ h]

theorem assoc_foldl_dflt (strengths : NumDict) (rules : List (Symb × Rule))
    (d : NumDict) :
    (rules.foldl (assocStep strengths) d).dflt = d.dflt := by
  induction rules generalizing d with
  | nil => rfl
  | cons p t ih => simp only [List.foldl_cons, ih, assocStep, ndSet]

theorem assoc_foldl_entries_nodup (strengths : NumDict)
    (rules : List (Symb × Rule)) (d : NumDict)
    (hnd : keysNodup d.entries) :
    keysNodup ((rules.foldl (assocStep strengths) d).entries) := by
  induction rules generalizing d with
  | nil => exact hnd
  | cons p t ih =>
      simp only [List.foldl_cons]
      exact ih _ (keysNodup_alSet _ _ _ (keysNodup_alSet _ _ _ hnd))

theorem assoc_foldl_val_untouched (strengths : NumDict)
    (rules : List (Symb × Rule)) (d : NumDict) (k : Symb)
    (h : ∀ p ∈ rules, p.1 ≠ k ∧ p.2.conc ≠ k) :
    (rules.foldl (assocStep strengths) d).val k = d.val k := by
  induction rules generalizing d with
  | nil => rfl
  | cons p t ih =>
      have hp := h p (List.mem_cons_self _ _)
      simp only [List.foldl_cons]
      rw [ih _ (fun q hq => h q (List.mem_cons_of_mem _ hq))]
      unfold assocStep
      rw [ndVal_ndSet_ne _ _ _ _ hp.1, ndVal_ndSet_ne _ _ _ _ hp.2]

theorem assoc_foldl_val_id (strengths : NumDict)
    (rules : List (Symb × Rule)) (d : NumDict) (r : Symb) (form : Rule)
    (hnd : keysNodup rules) (hm : (r, form) ∈ rules)
    (hru : ∀ p ∈ rules, p.1.isRu = true)
    (hch : ∀ p ∈ rules, p.2.conc.isCh = true) :
    (rules.foldl (assocStep strengths) d).val r = ruleStrength form strengths := by
  induction rules generalizing d with
  | nil => simp at hm
  | cons p t ih =>
      unfold keysNodup keysOf at hnd
      simp only [List.map_cons, List.nodup_cons] at hnd
      by_cases hp1 : p.1 = r
      · have hform : p.2 = form := by
          rcases List.mem_cons.mp hm with heq | htl
          · rw [← heq]
          · exact absurd (hp1 ▸ List.mem_map.mpr ⟨(r, form), htl, rfl⟩) hnd.1
        have hunt : ∀ q ∈ t, q.1 ≠ r ∧ q.2.conc ≠ r := by
          intro q hq
          constructor
          · intro he
            apply hnd.1
            rw [hp1, ← he]
            exact List.mem_map.mpr ⟨q, hq, rfl⟩
          · exact Symb.ne_of_isCh_isRu (hch q (List.mem_cons_of_mem _ hq))
              (hp1 ▸ hru p (List.mem_cons_self _ _))
        simp only [List.foldl_cons]
        rw [assoc_foldl_val_untouched _ _ _ _ hunt]
        unfold assocStep
        rw [← hform, ← hp1, ndVal_ndSet_self]
      · have htl : (r, form) ∈ t := by
          rcases List.mem_cons.mp hm with heq | htl
          · exact absurd (by rw [← heq]) hp1
          · exact htl
        simp only [List.foldl_cons]
        exact ih _ hnd.2 htl
          (fun q hq => hru q (List.mem_cons_of_mem _ hq))
          (fun q hq => hch q (List.mem_cons_of_mem _ hq))

theorem assoc_foldl_val_conc (strengths : NumDict)
    (rules : List (Symb × Rule)) (d : NumDict) (c : Symb)
    (hc : c.isCh = true) (hru : ∀ p ∈ rules, p.1.isRu = true) :
    (rules.foldl (assocStep strengths) d).val c =
      rules.foldl
        (fun m p =>
          if p.2.conc = c then max m (ruleStrength p.2 strengths) else m)
        (d.val c) := by
  induction rules generalizing d with
  | nil => rfl
  | cons p t ih =>
      have hne : p.1 ≠ c :=
        (Symb.ne_of_isCh_isRu hc (hru p (List.mem_cons_self _ _))).symm
      simp only [List.foldl_cons]
      rw [ih _ (fun q hq => hru q (List.mem_cons_of_mem _ hq))]
      unfold assocStep
      by_cases hcc : p.2.conc = c
      · rw [if_pos hcc, ndVal_ndSet_ne _ _ _ _ hne, hcc, ndVal_ndSet_self]
      · rw [if_neg hcc, ndVal_ndSet_ne _ _ _ _ hne, ndVal_ndSet_ne _ _ _ _ hcc]

theorem alGet_filter_ne_val {α : Type} [DecidableEq α] (l : List (Symb × α))
    (z : α) (k : Symb) (hnd : keysNodup l) :
    alGet (l.filter (fun p => decide (p.2 ≠ z))) k =
      match alGet l k with
      | some v => if v = z then none else some v
      | none => none := by
  induction l with
  | nil => simp [alGet]
  | cons h t ih =>
      unfold keysNodup keysOf at hnd
      simp only [List.map_cons, List.nodup_cons] at hnd
      rcases h with ⟨h1, h2⟩
      by_cases hv : h2 = z
      · have hfil : (((h1, h2) :: t).filter (fun p => decide (p.2 ≠ z))) =
            t.filter (fun p => decide (p.2 ≠ z)) := by
          simp [List.filter_cons, hv]
        rw [hfil, ih hnd.2]
        by_cases hk : h1 = k
        · have hnone : alGet t k = none := by
            rw [alGet_eq_none_iff_not_mem_keys]
            intro hmem
            apply hnd.1
            rw [hk]
            simpa [keysOf] using hmem
          simp [alGet, hk, hnone, hv]
        · simp only [alGet, if_neg hk]
      · have hfil : (((h1, h2) :: t).filter (fun p => decide (p.2 ≠ z))) =
            (h1, h2) :: t.filter (fun p => decide (p.2 ≠ z)) := by
          simp [List.filter_cons, hv]
        rw [hfil]
        by_cases hk : h1 = k
        · simp [alGet, hk, hv]
        · simp only [alGet, if_neg hk]
          exact ih hnd.2

theorem val_squeeze (d : NumDict) (k : Symb) (hnd : keysNodup d.entries) :
    (squeeze d).val k = d.val k := by
  unfold squeeze NumDict.val
  simp only []
  rw [alGet_filter_ne_val _ _ _ hnd]
  cases halg : alGet d.entries k with
  | none => simp
  | some v =>
      by_cases hv : v = d.dflt
      · simp [hv]
      · simp [hv]

theorem squeeze_entries_ne_dflt (d : NumDict) :
    ∀ p ∈ (squeeze d).entries, p.2 ≠ d.dflt := by
  intro p hp
  unfold squeeze at hp
  simp only [List.mem_filter, decide_not, ne_eq, Bool.not_eq_eq_eq_not,
    Bool.not_false, decide_eq_true_eq] at hp
  simpa using hp.2

/-- The per-conclusion output AssociativeRules actually computes: a running
maximum over the strengths of the rules sharing the conclusion, seeded from
the output mapping's default 0 (`d[form.conc] = max(d[form.conc], s_r)`
starts from `d[form.conc] = 0`). -/
def concRunningMax (rules : List (Symb × Rule)) (strengths : NumDict)
    (c : Symb) : ℚ :=
  rules.foldl
    (fun m p => if p.2.conc = c then max m (ruleStrength p.2 strengths) else m)
    0

/-- C3 counterexample: one stored rule concluding ch 9 whose strength is -1
under strengths mapping ch 1 to -1; the claim says the conclusion maps to
the maximum strength over rules sharing it (here -1), but the running
maximum is seeded from the default 0, so the output maps ch 9 to 0. -/
theorem C3_counterexample :
    (associative_call [(Symb.ru 1, ⟨Symb.ch 9, [(Symb.ch 1, 1)]⟩)]
      ⟨[(Symb.ch 1, -1)], 0⟩).val (Symb.ch 9) = 0 ∧
    ruleStrength ⟨Symb.ch 9, [(Symb.ch 1, 1)]⟩ ⟨[(Symb.ch 1, -1)], 0⟩ = -1 ∧
    (0 : ℚ) ≠ -1 := by
  refine ⟨?_, ?_, by norm_num⟩
  · norm_num [associative_call, assocStep, ruleStrength, squeeze, ndSet,
      NumDict.val, alGet, alSet, List.filter]
    decide
  · norm_num [ruleStrength, NumDict.val, alGet]

/-- C3 (amended): for every rule database and strengths mapping,
AssociativeRules returns a mapping with default 0 from which every
default-valued entry has been dropped; each stored rule id maps (under
lookup with default) to that rule's strength, and each conclusion chunk
maps to the running maximum — seeded from the default 0 — of the strengths
of the stored rules sharing it (the claimed plain maximum holds whenever
some sharing rule has nonnegative strength). -/
theorem C3_associative_call (rules : List (Symb × Rule)) (strengths : NumDict)
    (hnd : keysNodup rules)
    (hru : ∀ p ∈ rules, p.1.isRu = true)
    (hch : ∀ p ∈ rules, p.2.conc.isCh = true) :
    (associative_call rules strengths).dflt = 0 ∧
    (∀ p ∈ (associative_call rules strengths).entries, p.2 ≠ 0) ∧
    (∀ r form, (r, form) ∈ rules →
      (associative_call rules strengths).val r = ruleStrength form strengths) ∧
    (∀ c, c.isCh = true →
      (associative_call rules strengths).val c =
        concRunningMax rules strengths c) := by
  have hd0 : (rules.foldl (assocStep strengths) ⟨[], 0⟩).dflt = 0 :=
    assoc_foldl_dflt strengths rules ⟨[], 0⟩
  have hnodup : keysNodup ((rules.foldl (assocStep strengths) ⟨[], 0⟩).entries) :=
    assoc_foldl_entries_nodup strengths rules ⟨[], 0⟩ (by simp [keysNodup, keysOf])
  refine ⟨?_, ?_, ?_, ?_⟩
  · simp [associative_call, squeeze, hd0]
  · intro p hp
    have := squeeze_entries_ne_dflt (rules.foldl (assocStep strengths) ⟨[], 0⟩) p
      (by simpa [associative_call] using hp)
    rwa [hd0] at this
  · intro r form hm
    unfold associative_call
    rw [val_squeeze _ _ hnodup]
    exact assoc_foldl_val_id strengths rules _ r form hnd hm hru hch
  · intro c hc
    unfold associative_call
    rw [val_squeeze _ _ hnodup]
    rw [assoc_foldl_val_conc strengths rules _ c hc hru]
    rfl

/-- Witness for C3 at the spec's concrete scenario: strengths
{ch 1: 0.6, ch 2: 0.4}; Rule ru 1 concludes ch 9 with weights
{ch 1: 0.7, ch 2: 0.3} (strength 0.54), Rule ru 2 concludes ch 9 with
weight {ch 1: 1} (strength 0.6); the output maps ru 1 to 0.54, ru 2 to
0.6 and ch 9 to 0.6, with default 0. -/
theorem C3_associative_call_witness :
    keysNodup
      [(Symb.ru 1, (⟨Symb.ch 9, [(Symb.ch 1, 7/10), (Symb.ch 2, 3/10)]⟩ : Rule)),
        (Symb.ru 2, (⟨Symb.ch 9, [(Symb.ch 1, 1)]⟩ : Rule))] ∧
    (associative_call
      [(Symb.ru 1, ⟨Symb.ch 9, [(Symb.ch 1, 7/10), (Symb.ch 2, 3/10)]⟩),
        (Symb.ru 2, ⟨Symb.ch 9, [(Symb.ch 1, 1)]⟩)]
      ⟨[(Symb.ch 1, 3/5), (Symb.ch 2, 2/5)], 0⟩).val (Symb.ru 1) = 27/50 ∧
    (associative_call
      [(Symb.ru 1, ⟨Symb.ch 9, [(Symb.ch 1, 7/10), (Symb.ch 2, 3/10)]⟩),
        (Symb.ru 2, ⟨Symb.ch 9, [(Symb.ch 1, 1)]⟩)]
      ⟨[(Symb.ch 1, 3/5), (Symb.ch 2, 2/5)], 0⟩).val (Symb.ru 2) = 3/5 ∧
    (associative_call
      [(Symb.ru 1, ⟨Symb.ch 9, [(Symb.ch 1, 7/10), (Symb.ch 2, 3/10)]⟩),
        (Symb.ru 2, ⟨Symb.ch 9, [(Symb.ch 1, 1)]⟩)]
      ⟨[(Symb.ch 1, 3/5), (Symb.ch 2, 2/5)], 0⟩).val (Symb.ch 9) = 3/5 ∧
    (associative_call
      [(Symb.ru 1, ⟨Symb.ch 9, [(Symb.ch 1, 7/10), (Symb.ch 2, 3/10)]⟩),
        (Symb.ru 2, ⟨Symb.ch 9, [(Symb.ch 1, 1)]⟩)]
      ⟨[(Symb.ch 1, 3/5), (Symb.ch 2, 2/5)], 0⟩).dflt = 0 := by
  have h := C3_associative_call
    [(Symb.ru 1, ⟨Symb.ch 9, [(Symb.ch 1, 7/10), (Symb.ch 2, 3/10)]⟩),
      (Symb.ru 2, ⟨Symb.ch 9, [(Symb.ch 1, 1)]⟩)]
    ⟨[(Symb.ch 1, 3/5), (Symb.ch 2, 2/5)], 0⟩
    (by decide) (by decide) (by decide)
  refine ⟨by decide, ?_, ?_, ?_, h.1⟩
  · rw [h.2.2.1 (Symb.ru 1)
      ⟨Symb.ch 9, [(Symb.ch 1, 7/10), (Symb.ch 2, 3/10)]⟩ (by simp)]
    norm_num [ruleStrength, NumDict.val, alGet]
  · rw [h.2.2.1 (Symb.ru 2) ⟨Symb.ch 9, [(Symb.ch 1, 1)]⟩ (by simp)]
    norm_num [ruleStrength, NumDict.val, alGet]
  · rw [h.2.2.2 (Symb.ch 9) rfl]
    norm_num [concRunningMax, ruleStrength, NumDict.val, alGet, max_def]

/-! ### Claim C4: ActionRules -/

theorem alSet_append_of_not_mem {α : Type} (l : List (Symb × α)) (k : Symb)
    (v : α) (h : k ∉ keysOf l) : alSet l k v = l ++ [(k, v)] := by
  induction l with
  | nil => simp [alSet]
  | cons p t ih =>
      simp only [keysOf, List.map_cons, List.mem_cons] at h
      push_neg at h
      simp only [alSet, if_neg (Ne.symm h.1 : p.1 ≠ k), List.cons_append]
      rw [ih (by simpa [keysOf] using h.2)]

theorem keysOf_map_pair {α β : Type} (l : List (Symb × α)) (f : Symb × α → β) :
    keysOf (l.map (fun p => (p.1, f p))) = keysOf l := by
  induction l with
  | nil => rfl
  | cons p t ih => simp only [List.map_cons, keysOf] at ih ⊢; rw [ih]

theorem strength_fold_eq (f : Symb × Rule → ℚ) (rules : List (Symb × Rule))
    (d0 : NumDict) (hnd : keysNodup rules)
    (hdis : ∀ p ∈ rules, p.1 ∉ keysOf d0.entries) :
    rules.foldl (fun d p => ndSet d p.1 (f p)) d0 =
      ⟨d0.entries ++ rules.map (fun p => (p.1, f p)), d0.dflt⟩ := by
  induction rules generalizing d0 with
  | nil => simp
  | cons p t ih =>
      unfold keysNodup keysOf at hnd
      simp only [List.map_cons, List.nodup_cons] at hnd
      have hset : ndSet d0 p.1 (f p) = ⟨d0.entries ++ [(p.1, f p)], d0.dflt⟩ := by
        unfold ndSet
        rw [alSet_append_of_not_mem _ _ _ (hdis p (List.mem_cons_self _ _))]
      simp only [List.foldl_cons, hset]
      rw [ih ⟨d0.entries ++ [(p.1, f p)], d0.dflt⟩ hnd.2]
      · simp
      · intro q hq
        simp only [keysOf, List.map_append, List.mem_append, List.map_cons]
        push_neg
        constructor
        · simpa [keysOf] using hdis q (List.mem_cons_of_mem _ hq)
        · simp only [List.map_nil, List.mem_singleton]
          intro he
          exact hnd.1 (he ▸ List.mem_map.mpr ⟨q, hq, rfl⟩)

theorem filter_onehot_none (l : List Symb) (sel : Symb) (s : ℚ)
    (h : sel ∉ l) :
    ((l.map (fun k => (k, if sel = k then s else 0))).filter
      (fun p => decide (p.2 ≠ (0 : ℚ)))) = [] := by
  induction l with
  | nil => simp
  | cons k t ih =>
      simp only [List.mem_cons] at h
      push_neg at h
      simp only [List.map_cons, List.filter_cons, if_neg h.1]
      simp only [ne_eq, not_true_eq_false, decide_not]
      simpa using ih h.2

theorem filter_onehot (l : List Symb) (sel : Symb) (s : ℚ)
    (hnd : l.Nodup) (hsel : sel ∈ l) :
    ((l.map (fun k => (k, if sel = k then s else 0))).filter
      (fun p => decide (p.2 ≠ (0 : ℚ)))) =
      if s = 0 then [] else [(sel, s)] := by
  induction l with
  | nil => simp at hsel
  | cons k t ih =>
      simp only [List.nodup_cons] at hnd
      by_cases hk : sel = k
      · subst hk
        simp only [List.map_cons, List.filter_cons, if_pos rfl]
        rw [filter_onehot_none t sel s hnd.1]
        by_cases hs : s = 0
        · simp [hs]
        · simp [hs]
      · have hsel' : sel ∈ t := by
          rcases List.mem_cons.mp hsel with he | ht
          · exact absurd he hk
          · exact ht
        simp only [List.map_cons, List.filter_cons, if_neg hk]
        simp only [ne_eq, not_true_eq_false, decide_not]
        simpa using ih hnd.2 hsel'

theorem action_call_closed (rules : List (Symb × Rule)) (strengths : NumDict)
    (sel : Symb) (form : Rule)
    (hnd : keysNodup rules)
    (hru : ∀ p ∈ rules, p.1.isRu = true)
    (hch : ∀ p ∈ rules, p.2.conc.isCh = true)
    (hsel : (sel, form) ∈ rules) :
    action_call rules strengths sel =
      if ruleStrength form strengths = 0 then ⟨[], 0⟩
      else ⟨[(sel, max (ruleStrength form strengths) 0),
        (form.conc, max 0 (ruleStrength form strengths))], 0⟩ := by
  have hndE : keysNodup
      (rules.map (fun p => (p.1, ruleStrength p.2 strengths))) := by
    unfold keysNodup
    rw [keysOf_map_pair]
    exact hnd
  have hselka : sel ∈ keysOf rules := by
    unfold keysOf
    exact List.mem_map.mpr ⟨(sel, form), hsel, rfl⟩
  have hd : rules.foldl (fun d p => ndSet d p.1 (ruleStrength p.2 strengths))
      ⟨[], 0⟩ =
      ⟨rules.map (fun p => (p.1, ruleStrength p.2 strengths)), 0⟩ := by
    have := strength_fold_eq (fun p => ruleStrength p.2 strengths) rules
      ⟨[], 0⟩ hnd (by simp [keysOf])
    simpa using this
  have hvalsel :
      NumDict.val ⟨rules.map (fun p => (p.1, ruleStrength p.2 strengths)), 0⟩
        sel = ruleStrength form strengths := by
    unfold NumDict.val
    rw [alGet_of_mem_nodup hndE (List.mem_map.mpr ⟨(sel, form), hsel, rfl⟩)]
    rfl
  have h1 : action_call rules strengths sel =
      ndMaxMerge
        (squeeze (ndMul
          ⟨rules.map (fun p => (p.1, ruleStrength p.2 strengths)), 0⟩
          (drawOneHot sel)))
        (transformKeys
          (squeeze (ndMul
            ⟨rules.map (fun p => (p.1, ruleStrength p.2 strengths)), 0⟩
            (drawOneHot sel)))
          (fun r => ((alGet rules r).map Rule.conc).getD r)) := by
    unfold action_call
    rw [hd]
  have hkb : (keysOf [(sel, (1 : ℚ))]).filter
      (fun k => decide (k ∉ keysOf rules)) = [] := by
    have hdec : (decide (sel ∉ List.map Prod.fst rules)) = false := by
      simpa [keysOf] using hselka
    simp only [keysOf, List.map_cons, List.map_nil, List.filter_cons, hdec,
      List.filter_nil]
    simp
  have hmul : ndMul
      ⟨rules.map (fun p => (p.1, ruleStrength p.2 strengths)), 0⟩
      (drawOneHot sel) =
      ⟨(keysOf rules).map
        (fun k => (k, if sel = k then ruleStrength form strengths else 0)),
        0⟩ := by
    unfold ndMul drawOneHot
    simp only [keysOf_map_pair]
    rw [hkb, List.append_nil]
    congr 1
    · apply List.map_congr_left
      intro k hk
      by_cases hks : sel = k
      · subst hks
        rw [if_pos rfl]
        have hone : NumDict.val ⟨[(sel, (1 : ℚ))], 0⟩ sel = 1 := by
          simp [NumDict.val, alGet]
        rw [hone, mul_one, hvalsel]
      · rw [if_neg hks]
        have hzero : NumDict.val ⟨[(sel, (1 : ℚ))], 0⟩ k = 0 := by
          simp [NumDict.val, alGet, hks]
        rw [hzero, mul_zero]
    · norm_num
  have hsq : squeeze
      ⟨(keysOf rules).map
        (fun k => (k, if sel = k then ruleStrength form strengths else 0)),
        0⟩ =
      ⟨if ruleStrength form strengths = 0 then []
        else [(sel, ruleStrength form strengths)], 0⟩ := by
    unfold squeeze
    simp only []
    rw [filter_onehot (keysOf rules) sel (ruleStrength form strengths) hnd
      hselka]
  rw [h1, hmul, hsq]
  by_cases hs : ruleStrength form strengths = 0
  · rw [if_pos hs, if_pos hs]
    unfold transformKeys ndMaxMerge
    simp [keysOf, max_self]
  · rw [if_neg hs, if_neg hs]
    have hCne : form.conc ≠ sel :=
      Symb.ne_of_isCh_isRu (hch (sel, form) hsel) (hru (sel, form) hsel)
    have htr : transformKeys ⟨[(sel, ruleStrength form strengths)], 0⟩
        (fun r => ((alGet rules r).map Rule.conc).getD r) =
        ⟨[(form.conc, ruleStrength form strengths)], 0⟩ := by
      unfold transformKeys
      simp only [List.map_cons, List.map_nil]
      rw [alGet_of_mem_nodup hnd hsel]
      rfl
    rw [htr]
    unfold ndMaxMerge
    have hfil : (keysOf [(form.conc, ruleStrength form strengths)]).filter
        (fun k => decide (k ∉ keysOf [(sel, ruleStrength form strengths)])) =
        [form.conc] := by
      have hdec : (decide (form.conc ∉ [sel])) = true := by
        simp [hCne]
      simp only [keysOf, List.map_cons, List.map_nil, List.filter_cons, hdec,
        List.filter_nil]
      simp
    rw [hfil]
    congr 1
    · simp only [keysOf, List.map_cons, List.map_nil, List.cons_append,
        List.nil_append]
      have hv1 : NumDict.val ⟨[(sel, ruleStrength form strengths)], 0⟩ sel =
          ruleStrength form strengths := by
        simp [NumDict.val, alGet]
      have hv2 : NumDict.val ⟨[(form.conc, ruleStrength form strengths)], 0⟩
          sel = 0 := by
        simp [NumDict.val, alGet, hCne]
      have hv3 : NumDict.val ⟨[(sel, ruleStrength form strengths)], 0⟩
          form.conc = 0 := by
        simp [NumDict.val, alGet, Ne.symm hCne]
      have hv4 : NumDict.val ⟨[(form.conc, ruleStrength form strengths)], 0⟩
          form.conc = ruleStrength form strengths := by
        simp [NumDict.val, alGet]
      rw [hv1, hv2, hv3, hv4]

/-- C4 counterexample: a single stored rule whose strength is 0 under an
all-default strengths input; whichever rule the draw selects (here the only
one), the output is empty — no rule id contributes nonzero strength, so
"exactly one rule id contributes nonzero strength" fails. -/
theorem C4_counterexample :
    (action_call [(Symb.ru 1, ⟨Symb.ch 9, [(Symb.ch 1, 1)]⟩)] ⟨[], 0⟩
      (Symb.ru 1)).entries = [] ∧
    (action_call [(Symb.ru 1, ⟨Symb.ch 9, [(Symb.ch 1, 1)]⟩)] ⟨[], 0⟩
      (Symb.ru 1)).val (Symb.ru 1) = 0 := by
  have hs : ruleStrength ⟨Symb.ch 9, [(Symb.ch 1, 1)]⟩ ⟨[], 0⟩ = 0 := by
    norm_num [ruleStrength, NumDict.val, alGet]
  have h := action_call_closed [(Symb.ru 1, ⟨Symb.ch 9, [(Symb.ch 1, 1)]⟩)]
    ⟨[], 0⟩ (Symb.ru 1) ⟨Symb.ch 9, [(Symb.ch 1, 1)]⟩
    (by decide) (by decide) (by decide) (by simp)
  rw [h, if_pos hs]
  exact ⟨rfl, by simp [NumDict.val, alGet]⟩

/-- C4 (amended): whichever rule id the stochastic draw selects, the output
mapping has default 0, every non-selected rule id maps to 0, and both the
selected rule id and its conclusion map to the maximum of the selected
rule's strength and 0 — the strength reaches the output only max-combined
against the default 0, and the conclusion receives it by max-combine
through the key remap. In particular at most one rule id contributes
nonzero strength (exactly one when the selected rule's strength is
positive, but none when it is 0 or negative). -/
theorem C4_action_call (rules : List (Symb × Rule)) (strengths : NumDict)
    (sel : Symb) (form : Rule)
    (hnd : keysNodup rules)
    (hru : ∀ p ∈ rules, p.1.isRu = true)
    (hch : ∀ p ∈ rules, p.2.conc.isCh = true)
    (hsel : (sel, form) ∈ rules) :
    (action_call rules strengths sel).dflt = 0 ∧
    (∀ r f, (r, f) ∈ rules → r ≠ sel →
      (action_call rules strengths sel).val r = 0) ∧
    (action_call rules strengths sel).val sel =
      max (ruleStrength form strengths) 0 ∧
    (action_call rules strengths sel).val form.conc =
      max (ruleStrength form strengths) 0 := by
  rw [action_call_closed rules strengths sel form hnd hru hch hsel]
  by_cases hs : ruleStrength form strengths = 0
  · rw [if_pos hs]
    refine ⟨rfl, ?_, ?_, ?_⟩
    · intro r f _ _
      simp [NumDict.val, alGet]
    · simp [NumDict.val, alGet, hs]
    · simp [NumDict.val, alGet, hs]
  · rw [if_neg hs]
    have hCne : form.conc ≠ sel :=
      Symb.ne_of_isCh_isRu (hch (sel, form) hsel) (hru (sel, form) hsel)
    refine ⟨rfl, ?_, ?_, ?_⟩
    · intro r f hm hne
      have hrC : form.conc ≠ r :=
        Symb.ne_of_isCh_isRu (hch (sel, form) hsel) (hru (r, f) hm)
      simp [NumDict.val, alGet, Ne.symm hne, hrC]
    · simp [NumDict.val, alGet]
    · simp [NumDict.val, alGet, Ne.symm hCne, max_comm]

/-- Witness for C4 at a concrete single-rule database with condition
strength 0.5: the selected rule id and its conclusion both map to 0.5, and
the default is 0. -/
theorem C4_action_call_witness :
    (action_call [(Symb.ru 1, ⟨Symb.ch 9, [(Symb.ch 1, 1)]⟩)]
      ⟨[(Symb.ch 1, 1/2)], 0⟩ (Symb.ru 1)).dflt = 0 ∧
    (action_call [(Symb.ru 1, ⟨Symb.ch 9, [(Symb.ch 1, 1)]⟩)]
      ⟨[(Symb.ch 1, 1/2)], 0⟩ (Symb.ru 1)).val (Symb.ru 1) = 1/2 ∧
    (action_call [(Symb.ru 1, ⟨Symb.ch 9, [(Symb.ch 1, 1)]⟩)]
      ⟨[(Symb.ch 1, 1/2)], 0⟩ (Symb.ru 1)).val (Symb.ch 9) = 1/2 := by
  have h := C4_action_call [(Symb.ru 1, ⟨Symb.ch 9, [(Symb.ch 1, 1)]⟩)]
    ⟨[(Symb.ch 1, 1/2)], 0⟩ (Symb.ru 1) ⟨Symb.ch 9, [(Symb.ch 1, 1)]⟩
    (by decide) (by decide) (by decide) (by simp)
  have hsv : ruleStrength ⟨Symb.ch 9, [(Symb.ch 1, 1)]⟩
      ⟨[(Symb.ch 1, 1/2)], 0⟩ = 1/2 := by
    norm_num [ruleStrength, NumDict.val, alGet]
  refine ⟨h.1, ?_, ?_⟩
  · rw [h.2.2.1, hsv]
    norm_num [max_def]
  · have h3 : (action_call [(Symb.ru 1, ⟨Symb.ch 9, [(Symb.ch 1, 1)]⟩)]
        ⟨[(Symb.ch 1, 1/2)], 0⟩ (Symb.ru 1)).val (Symb.ch 9) =
        max (ruleStrength ⟨Symb.ch 9, [(Symb.ch 1, 1)]⟩
          ⟨[(Symb.ch 1, 1/2)], 0⟩) 0 := h.2.2.2
    rw [h3, hsv]
    norm_num [max_def]
